import Mathlib

/-!
Verification development for the investment-portfolio repository.

The repository describes a portfolio accounting engine (transaction
classifier, FIFO cost-basis engine, holdings reconstructor, currency
normalizer, price forward-fill) whose implementation modules
(src/transaction_processor.py, src/portfolio.py, src/market_data.py,
src/data_ingestion.py) are referenced by the README but are not present
in the repository tree; those components are modelled here from the
specification.  The data-fetch notebook (tools/fetch-UAE-market-data.ipynb)
is present and is embedded from its source.
-/

/-- Modelled from the spec: the immutable `Transaction` record of §3
(the ingestion module src/data_ingestion.py is not present in the
repository).  Dates are abstracted as natural numbers; decimal amounts
as rationals.  The `amount` sign encodes cash direction (negative =
outflow). -/
structure Transaction where
  date : ℕ
  raw_type : String
  symbol : Option String
  quantity : ℚ
  price : ℚ
  amount : ℚ
  commission : ℚ
  currency : String
  exchange : String
  source : String
deriving DecidableEq

/-- Modelled from the spec: the five-value `Action` taxonomy of §3. -/
inductive TxAction where
  | trade
  | cash_flow
  | income
  | corporate_action
  | ignore
deriving DecidableEq

/-- Modelled from the spec: the error taxonomy of §7. -/
inductive PortfolioError where
  | unmappedTransactionType (raw : String) (date : ℕ)
  | invalidCashFlowSign
  | oversoldPosition
  | missingFxRate (currency : String) (date : ℕ)
  | ambiguousCorporateAction
deriving DecidableEq

/-- Modelled from the spec: the `Lot` record of §3, owned by the
Cost-Basis Engine's per-symbol queue (src/transaction_processor.py is
not present in the repository). -/
structure Lot where
  symbol : String
  open_date : ℕ
  quantity_open : ℚ
  cost_basis_per_unit : ℚ
  currency : String
deriving DecidableEq

/-- Modelled from the spec: the per-symbol state of the Cost-Basis
Engine (§4.4): the FIFO lot queue, front first, plus the cumulative
realized gain recorded at sale time. -/
structure EngineState where
  lots : List Lot
  realized : ℚ
deriving DecidableEq

/-- Total open quantity held: sum of `quantity_open` over the queue. -/
def totalQty (lots : List Lot) : ℚ :=
  (lots.map Lot.quantity_open).sum

/-- Total cost basis of the open lots: sum of quantity × cost-basis-per-unit. -/
def totalCost (lots : List Lot) : ℚ :=
  (lots.map (fun l => l.quantity_open * l.cost_basis_per_unit)).sum

/-- Modelled from the spec (§4.4): the lot created by a buy, with
quantity = trade quantity and cost-basis-per-unit = (amount + commission)/quantity. -/
def mkLot (t : Transaction) : Lot :=
  ⟨t.symbol.getD "", t.date, t.quantity, (t.amount + t.commission) / t.quantity, t.currency⟩

/-- Modelled from the spec (§4.4): sale proceeds per unit =
(amount − commission)/|quantity|. -/
def proceedsPerUnit (t : Transaction) : ℚ :=
  (t.amount - t.commission) / |t.quantity|

/-- Modelled from the spec (§4.4): consuming `q` units from the front of
the FIFO queue.  Returns the remaining queue together with the consumed
slices, each slice pairing the lot it came from with the quantity taken
from it.  Fully consumed (zero-residual) lots are pruned.  Consuming more
than the total open quantity fails with `OversoldPosition`. -/
def consume : List Lot → ℚ → Except PortfolioError (List Lot × List (Lot × ℚ))
  | [], q => if q ≤ 0 then .ok ([], []) else .error .oversoldPosition
  | l :: rest, q =>
    if q ≤ 0 then .ok (l :: rest, [])
    else if l.quantity_open ≤ q then
      match consume rest (q - l.quantity_open) with
      | .ok (lots2, s) => .ok (lots2, (l, l.quantity_open) :: s)
      | .error e => .error e
    else
      .ok (⟨l.symbol, l.open_date, l.quantity_open - q, l.cost_basis_per_unit, l.currency⟩ :: rest,
           [(l, q)])

/-- Realized gain of a list of consumed slices at sale-proceeds-per-unit
`ppu`: each slice contributes (ppu − lot cost-basis-per-unit) × slice quantity. -/
def slicesGain (ppu : ℚ) (s : List (Lot × ℚ)) : ℚ :=
  (s.map (fun sl => (ppu - sl.1.cost_basis_per_unit) * sl.2)).sum

/-- Total quantity of a list of consumed slices. -/
def slicesQty (s : List (Lot × ℚ)) : ℚ :=
  (s.map Prod.snd).sum

/-- Cost basis of a list of consumed slices. -/
def slicesCost (s : List (Lot × ℚ)) : ℚ :=
  (s.map (fun sl => sl.1.cost_basis_per_unit * sl.2)).sum

/-- Modelled from the spec (§4.2, §4.4): applying one trade to the
engine state, returning the new state together with the slices consumed
(empty for a buy).  Quantity sign determines buy/sell; a buy appends a
new lot; a sell consumes from the front of the queue and records the
realized gain of the consumed slices. -/
def applyTradeTr (st : EngineState) (t : Transaction) :
    Except PortfolioError (EngineState × List (Lot × ℚ)) :=
  if 0 < t.quantity then
    .ok (⟨st.lots ++ [mkLot t], st.realized⟩, [])
  else if t.quantity < 0 then
    match consume st.lots (-t.quantity) with
    | .ok (lots2, s) => .ok (⟨lots2, st.realized + slicesGain (proceedsPerUnit t) s⟩, s)
    | .error e => .error e
  else
    .ok (st, [])

/-- The engine step without the slice trace. -/
def applyTrade (st : EngineState) (t : Transaction) : Except PortfolioError EngineState :=
  match applyTradeTr st t with
  | .ok (st2, _) => .ok st2
  | .error e => .error e

/-- Modelled from the spec: on failure no partial state is committed —
the step either commits the successor state or reports the error with
the state exactly as it was (§4.4, §8 oversell scenario). -/
def commitTrade (st : EngineState) (t : Transaction) : EngineState × Option PortfolioError :=
  match applyTrade st t with
  | .ok st2 => (st2, none)
  | .error e => (st, some e)

/-- Modelled from the spec (§4.4): a corporate split rescales every open
lot's quantity by the split ratio `r` and its cost-basis-per-unit
inversely. -/
def applySplit (r : ℚ) (lots : List Lot) : List Lot :=
  lots.map (fun l =>
    ⟨l.symbol, l.open_date, l.quantity_open * r, l.cost_basis_per_unit / r, l.currency⟩)

/-- Modelled from the spec: a per-symbol ledger event — a trade or a
corporate split at a given date with ratio `r` (§4.3). -/
inductive LedgerEvent where
  | trade (t : Transaction)
  | corporateSplit (date : ℕ) (r : ℚ)
deriving DecidableEq

/-- The date of a ledger event. -/
def LedgerEvent.date : LedgerEvent → ℕ
  | .trade t => t.date
  | .corporateSplit d _ => d

/-- Modelled from the spec: one engine step on a ledger event (§4.4). -/
def applyEvent (st : EngineState) : LedgerEvent → Except PortfolioError EngineState
  | .trade t => applyTrade st t
  | .corporateSplit _ r => .ok ⟨applySplit r st.lots, st.realized⟩

/-- Modelled from the spec: processing a ledger event stream in order,
stopping at the first error. -/
def processEvents (st : EngineState) : List LedgerEvent → Except PortfolioError EngineState
  | [] => .ok st
  | e :: rest =>
    match applyEvent st e with
    | .ok st2 => processEvents st2 rest
    | .error err => .error err

/-- Processing a list of trades while accumulating the slice trace, in
consumption order. -/
def processTradesTr (st : EngineState) :
    List Transaction → Except PortfolioError (EngineState × List (Lot × ℚ))
  | [] => .ok (st, [])
  | t :: rest =>
    match applyTradeTr st t with
    | .ok (st2, s) =>
      match processTradesTr st2 rest with
      | .ok (stF, tr) => .ok (stF, s ++ tr)
      | .error e => .error e
    | .error e => .error e

/-- The empty engine state. -/
def initialState : EngineState := ⟨[], 0⟩

/-- Modelled from the spec (§4.3): the Holdings Reconstructor's step —
a trade adds its signed quantity, a split multiplies holdings by the
ratio (src/portfolio.py is not present in the repository). -/
def holdingsStep (h : ℚ) : LedgerEvent → ℚ
  | .trade t => h + t.quantity
  | .corporateSplit _ r => h * r

/-- The events of a stream dated at or before `d`. -/
def eventsUpTo (events : List LedgerEvent) (d : ℕ) : List LedgerEvent :=
  events.filter (fun e => e.date ≤ d)

/-- Modelled from the spec (§3, §4.3): the dense per-symbol
HoldingsSeries — the value at date `d` is the cumulative sum of signed
trade quantities, with split adjustments, over all events up to `d`. -/
def holdingsSeries (events : List LedgerEvent) (d : ℕ) : ℚ :=
  (eventsUpTo events d).foldl holdingsStep 0

/-- Modelled from the spec (§4.1): the Transaction Classifier's
per-transaction lookup — case-sensitive, exact string match of
`raw_type` in the user-supplied mapping table. -/
def classifyOne (m : List (String × TxAction)) (t : Transaction) : Except PortfolioError TxAction :=
  match m.lookup t.raw_type with
  | some a => .ok a
  | none => .error (.unmappedTransactionType t.raw_type t.date)

/-- Modelled from the spec (§4.1): the Transaction Classifier — annotate
each transaction with its action, failing fast with
`UnmappedTransactionType` on the first unmapped `raw_type`. -/
def classify (m : List (String × TxAction)) :
    List Transaction → Except PortfolioError (List (Transaction × TxAction))
  | [] => .ok []
  | t :: rest =>
    match classifyOne m t with
    | .ok a =>
      match classify m rest with
      | .ok tail => .ok ((t, a) :: tail)
      | .error e => .error e
    | .error e => .error e

/-- Modelled from the spec (§3): one observation of a per-symbol
PriceSeries — a trading-day close together with the discrete
dividend/split event fields of that day (src/market_data.py is not
present in the repository). -/
structure PricePoint where
  date : ℕ
  close : ℚ
  dividend : Option ℚ
  stockSplit : Option ℚ
deriving DecidableEq

/-- Modelled from the spec (§3, §8): forward-filled close price at date
`d` — the close of the last observation dated at or before `d`, absent
when no observation precedes `d`.  Observations are listed in ascending
date order and later observations take precedence. -/
def ffillClose : List PricePoint → ℕ → Option ℚ
  | [], _ => none
  | p :: rest, d =>
    match ffillClose rest d with
    | some c => some c
    | none => if p.date ≤ d then some p.close else none

/-- Modelled from the spec (§3): the dividend EVENT field at date `d` is
read only from an observation dated exactly `d`; it is never
forward-filled. -/
def dividendAt (ps : List PricePoint) (d : ℕ) : Option ℚ :=
  match ps.find? (fun p => p.date = d) with
  | some p => p.dividend
  | none => none

/-- Modelled from the spec (§3): the stock-split EVENT field at date `d`
is read only from an observation dated exactly `d`; it is never
forward-filled. -/
def splitEventAt (ps : List PricePoint) (d : ℕ) : Option ℚ :=
  match ps.find? (fun p => p.date = d) with
  | some p => p.stockSplit
  | none => none

/-- Modelled from the spec (§4.5): the FX-rate lookup keyed by
(currency, date). -/
def fxLookup (rates : List ((String × ℕ) × ℚ)) (c : String) (d : ℕ) : Option ℚ :=
  rates.lookup (c, d)

/-- Modelled from the spec (§4.5): the Currency Normalizer — convert an
amount tagged with a currency to the base currency using that date's
rate; a missing rate fails with `MissingFxRate`. -/
def toBase (rates : List ((String × ℕ) × ℚ)) (amt : ℚ) (c : String) (d : ℕ) :
    Except PortfolioError ℚ :=
  match fxLookup rates c d with
  | some r => .ok (amt * r)
  | none => .error (.missingFxRate c d)

/-- Modelled from the spec (§4.5): converting a base-currency amount
back to the tagged currency using the same date's rate. -/
def fromBase (rates : List ((String × ℕ) × ℚ)) (amt : ℚ) (c : String) (d : ℕ) :
    Except PortfolioError ℚ :=
  match fxLookup rates c d with
  | some r => .ok (amt / r)
  | none => .error (.missingFxRate c d)

/-- The body of the HTTP response processed by `fetch_data` in
tools/fetch-UAE-market-data.ipynb: a JSON array of records, each record
a list of key/value fields (values abstracted as strings). -/
def JsonRecords : Type := List (List (String × String))

/-- Column set of `pd.DataFrame(data)`: the keys occurring across the
records, first occurrence order. -/
def dfColumns (data : List (List (String × String))) : List String :=
  ((data.map (fun r => r.map Prod.fst)).flatten).dedup

/-- The pandas DataFrame as used by `fetch_data`: its columns, its
records, and whether `set_index("Date")` has been applied. -/
structure DataFrame where
  columns : List String
  records : List (List (String × String))
  indexedByDate : Bool
deriving DecidableEq

/-- The `df.rename(columns={"DT": "Date"})` step applied to one record. -/
def renameDT (r : List (String × String)) : List (String × String) :=
  r.map (fun kv => if kv.1 = "DT" then ("Date", kv.2) else kv)

/-- The possible outcomes of the guarded block of `fetch_data`
(tools/fetch-UAE-market-data.ipynb): the request and JSON decoding
succeed with a list of records, or `requests.get`/`raise_for_status`
raises a `RequestException`, or `response.json()` raises a `ValueError`. -/
inductive FetchOutcome where
  | success (data : List (List (String × String)))
  | requestException
  | jsonDecodeError
deriving DecidableEq

/-- Outcome of executing a Python function to completion: either a
returned value, or an `UnboundLocalError` raised because the `return`
statement referenced a local variable that was never assigned on the
executed path. -/
inductive PyResult (α : Type) where
  | ret (a : α)
  | unboundLocalError
deriving DecidableEq

/-- Whether the Python function returned normally. -/
def PyResult.isRet {α : Type} : PyResult α → Bool
  | .ret _ => true
  | .unboundLocalError => false

/-- `fetch_data` from tools/fetch-UAE-market-data.ipynb.  On success the
records become a DataFrame; when `"DT"` is among the columns it is
renamed to `"Date"` and set as the index; the pair `(df, data)` is
returned.  When a `RequestException` or a JSON-decoding `ValueError` is
caught, the handler prints a message and control falls through to
`return df, data`; but `df` and `data` are local variables assigned only
inside the `try` block, so on those paths the `return` raises
`UnboundLocalError`. -/
def fetch_data (o : FetchOutcome) : PyResult (DataFrame × List (List (String × String))) :=
  match o with
  | .success data =>
    if "DT" ∈ dfColumns data then
      .ret (⟨(dfColumns data).map (fun c => if c = "DT" then "Date" else c),
             data.map renameDT, true⟩, data)
    else
      .ret (⟨dfColumns data, data, false⟩, data)
  | .requestException => .unboundLocalError
  | .jsonDecodeError => .unboundLocalError

/-- A row of `symbol_market_pair` in tools/fetch-UAE-market-data.ipynb:
the Symbol and Exchange columns extracted from the transaction log. -/
structure SymbolExchangeRow where
  Symbol : String
  Exchange : String
deriving DecidableEq

/-- The exchange chosen by the batch-download loop:
`row["Exchange"] if row["Exchange"] == "DFM" else "ADSM"`. -/
def exchangeArg (row : SymbolExchangeRow) : String :=
  if row.Exchange = "DFM" then row.Exchange else "ADSM"

/-- The datafeed request URL f-string of tools/fetch-UAE-market-data.ipynb
(note that `interval={1}` interpolates the literal 1). -/
def datafeedUrl (session_id symbol exchange start stop slug : String) : String :=
  "https://mobile.intlsecurities.ae/FITDataFeedServiceGateway/DataFeedService.asmx/datafeedDFN?session="
    ++ session_id ++ "&symbol=" ++ symbol ++ "," ++ exchange ++ "&period=day&from=" ++ start
    ++ "&to=" ++ stop ++ "&interval=1$" ++ slug

/-- What one iteration of the batch-download loop produces for a row:
the request URL and the CSV path the fetched history is saved to. -/
structure DownloadStep where
  url : String
  csvPath : String
deriving DecidableEq

/-- One iteration of the download loop of tools/fetch-UAE-market-data.ipynb:
build the URL from the row's Symbol and the chosen exchange, and save to
`../data/manual-source/{Symbol}.csv` (braces denoting the f-string slot). -/
def downloadStep (session_id start stop slug : String) (row : SymbolExchangeRow) : DownloadStep :=
  ⟨datafeedUrl session_id row.Symbol (exchangeArg row) start stop slug,
   "../data/manual-source/" ++ row.Symbol ++ ".csv"⟩

theorem totalQty_nil : totalQty [] = 0 := rfl

theorem totalQty_cons (l : Lot) (ls : List Lot) :
    totalQty (l :: ls) = l.quantity_open + totalQty ls := by
  simp [totalQty]

theorem totalQty_append (a b : List Lot) : totalQty (a ++ b) = totalQty a + totalQty b := by
  simp [totalQty]

theorem totalQty_nonneg (ls : List Lot) (h : ∀ l ∈ ls, 0 ≤ l.quantity_open) :
    0 ≤ totalQty ls := by
  induction ls with
  | nil => simp [totalQty]
  | cons l rest ih =>
    rw [totalQty_cons]
    have h1 := h l (by simp)
    have h2 := ih (fun x hx => h x (by simp [hx]))
    linarith

theorem totalCost_nil : totalCost [] = 0 := rfl

theorem totalCost_cons (l : Lot) (ls : List Lot) :
    totalCost (l :: ls) = l.quantity_open * l.cost_basis_per_unit + totalCost ls := by
  simp [totalCost]

theorem slicesQty_nil : slicesQty [] = 0 := rfl

theorem slicesQty_cons (a : Lot × ℚ) (s : List (Lot × ℚ)) :
    slicesQty (a :: s) = a.2 + slicesQty s := by
  simp [slicesQty]

theorem slicesCost_cons (a : Lot × ℚ) (s : List (Lot × ℚ)) :
    slicesCost (a :: s) = a.1.cost_basis_per_unit * a.2 + slicesCost s := by
  simp [slicesCost]

theorem slicesGain_decomp (ppu : ℚ) (s : List (Lot × ℚ)) :
    slicesGain ppu s = ppu * slicesQty s - slicesCost s := by
  induction s with
  | nil => simp [slicesGain, slicesQty, slicesCost]
  | cons a s ih =>
    simp only [slicesGain, List.map_cons, List.sum_cons, slicesQty_cons, slicesCost_cons]
    simp only [slicesGain] at ih
    rw [ih]
    ring

theorem consume_ok_of_le (lots : List Lot) (q : ℚ)
    (hnn : ∀ l ∈ lots, 0 ≤ l.quantity_open) (hle : q ≤ totalQty lots) :
    ∃ lots2 s, consume lots q = .ok (lots2, s) := by
  induction lots generalizing q with
  | nil =>
    rw [totalQty_nil] at hle
    exact ⟨[], [], by simp [consume, hle]⟩
  | cons l rest ih =>
    by_cases hq : q ≤ 0
    · exact ⟨l :: rest, [], by simp [consume, hq]⟩
    · by_cases hl : l.quantity_open ≤ q
      · have hrest : q - l.quantity_open ≤ totalQty rest := by
          rw [totalQty_cons] at hle; linarith
        obtain ⟨lots2, s, hcs⟩ := ih (q - l.quantity_open)
          (fun x hx => hnn x (by simp [hx])) hrest
        exact ⟨lots2, (l, l.quantity_open) :: s, by simp [consume, hq, hl, hcs]⟩
      · exact ⟨⟨l.symbol, l.open_date, l.quantity_open - q, l.cost_basis_per_unit, l.currency⟩ :: rest,
               [(l, q)], by simp [consume, hq, hl]⟩

theorem consume_err_of_gt (lots : List Lot) (q : ℚ)
    (hnn : ∀ l ∈ lots, 0 ≤ l.quantity_open) (hgt : totalQty lots < q) :
    consume lots q = .error .oversoldPosition := by
  induction lots generalizing q with
  | nil =>
    rw [totalQty_nil] at hgt
    simp [consume, not_le.mpr hgt]
  | cons l rest ih =>
    have hql : 0 ≤ totalQty rest :=
      totalQty_nonneg rest (fun x hx => hnn x (by simp [hx]))
    rw [totalQty_cons] at hgt
    have h0 := hnn l (by simp)
    have hq : ¬ q ≤ 0 := by linarith
    by_cases hl : l.quantity_open ≤ q
    · have := ih (q - l.quantity_open) (fun x hx => hnn x (by simp [hx])) (by linarith)
      simp [consume, hq, hl, this]
    · exfalso; linarith [not_le.mp hl]

theorem consume_totalQty (lots : List Lot) (q : ℚ) (lots2 : List Lot) (s : List (Lot × ℚ))
    (h : consume lots q = .ok (lots2, s)) :
    totalQty lots2 = totalQty lots - slicesQty s := by
  induction lots generalizing q lots2 s with
  | nil =>
    rw [consume] at h
    split_ifs at h
    simp only [Except.ok.injEq, Prod.mk.injEq] at h
    obtain ⟨rfl, rfl⟩ := h
    simp [slicesQty]
  | cons l rest ih =>
    rw [consume] at h
    split_ifs at h with hq hl
    · simp only [Except.ok.injEq, Prod.mk.injEq] at h
      obtain ⟨rfl, rfl⟩ := h
      simp [slicesQty]
    · cases hr : consume rest (q - l.quantity_open) with
      | ok r =>
        obtain ⟨lots3, s3⟩ := r
        rw [hr] at h
        simp only [Except.ok.injEq, Prod.mk.injEq] at h
        obtain ⟨rfl, rfl⟩ := h
        have := ih (q - l.quantity_open) lots3 s3 hr
        rw [this, totalQty_cons, slicesQty_cons]
        ring
      | error e => rw [hr] at h; cases h
    · simp only [Except.ok.injEq, Prod.mk.injEq] at h
      obtain ⟨rfl, rfl⟩ := h
      rw [totalQty_cons, totalQty_cons, slicesQty_cons]
      simp [slicesQty]
      ring

theorem consume_slicesQty (lots : List Lot) (q : ℚ) (lots2 : List Lot) (s : List (Lot × ℚ))
    (hq0 : 0 ≤ q) (h : consume lots q = .ok (lots2, s)) :
    slicesQty s = q := by
  induction lots generalizing q lots2 s with
  | nil =>
    rw [consume] at h
    split_ifs at h with hq
    simp only [Except.ok.injEq, Prod.mk.injEq] at h
    obtain ⟨rfl, rfl⟩ := h
    rw [slicesQty_nil]; linarith
  | cons l rest ih =>
    rw [consume] at h
    split_ifs at h with hq hl
    · simp only [Except.ok.injEq, Prod.mk.injEq] at h
      obtain ⟨rfl, rfl⟩ := h
      rw [slicesQty_nil]; linarith
    · cases hr : consume rest (q - l.quantity_open) with
      | ok r =>
        obtain ⟨lots3, s3⟩ := r
        rw [hr] at h
        simp only [Except.ok.injEq, Prod.mk.injEq] at h
        obtain ⟨rfl, rfl⟩ := h
        have := ih (q - l.quantity_open) lots3 s3 (by linarith) hr
        rw [slicesQty_cons, this]
        ring
      | error e => rw [hr] at h; cases h
    · simp only [Except.ok.injEq, Prod.mk.injEq] at h
      obtain ⟨rfl, rfl⟩ := h
      simp [slicesQty]

theorem consume_totalCost (lots : List Lot) (q : ℚ) (lots2 : List Lot) (s : List (Lot × ℚ))
    (h : consume lots q = .ok (lots2, s)) :
    totalCost lots2 = totalCost lots - slicesCost s := by
  induction lots generalizing q lots2 s with
  | nil =>
    rw [consume] at h
    split_ifs at h
    simp only [Except.ok.injEq, Prod.mk.injEq] at h
    obtain ⟨rfl, rfl⟩ := h
    simp [slicesCost]
  | cons l rest ih =>
    rw [consume] at h
    split_ifs at h with hq hl
    · simp only [Except.ok.injEq, Prod.mk.injEq] at h
      obtain ⟨rfl, rfl⟩ := h
      simp [slicesCost]
    · cases hr : consume rest (q - l.quantity_open) with
      | ok r =>
        obtain ⟨lots3, s3⟩ := r
        rw [hr] at h
        simp only [Except.ok.injEq, Prod.mk.injEq] at h
        obtain ⟨rfl, rfl⟩ := h
        have := ih (q - l.quantity_open) lots3 s3 hr
        rw [this, totalCost_cons, slicesCost_cons]
        ring
      | error e => rw [hr] at h; cases h
    · simp only [Except.ok.injEq, Prod.mk.injEq] at h
      obtain ⟨rfl, rfl⟩ := h
      rw [totalCost_cons, totalCost_cons, slicesCost_cons]
      simp only [slicesCost, List.map_nil, List.sum_nil]
      ring

theorem consume_take (lots : List Lot) (q : ℚ) (lots2 : List Lot) (s : List (Lot × ℚ))
    (h : consume lots q = .ok (lots2, s)) :
    s.map Prod.fst = lots.take s.length := by
  induction lots generalizing q lots2 s with
  | nil =>
    rw [consume] at h
    split_ifs at h
    simp only [Except.ok.injEq, Prod.mk.injEq] at h
    obtain ⟨rfl, rfl⟩ := h
    simp
  | cons l rest ih =>
    rw [consume] at h
    split_ifs at h with hq hl
    · simp only [Except.ok.injEq, Prod.mk.injEq] at h
      obtain ⟨rfl, rfl⟩ := h
      simp
    · cases hr : consume rest (q - l.quantity_open) with
      | ok r =>
        obtain ⟨lots3, s3⟩ := r
        rw [hr] at h
        simp only [Except.ok.injEq, Prod.mk.injEq] at h
        obtain ⟨rfl, rfl⟩ := h
        have := ih (q - l.quantity_open) lots3 s3 hr
        simp [this]
      | error e => rw [hr] at h; cases h
    · simp only [Except.ok.injEq, Prod.mk.injEq] at h
      obtain ⟨rfl, rfl⟩ := h
      simp

theorem consume_pos (lots : List Lot) (q : ℚ) (lots2 : List Lot) (s : List (Lot × ℚ))
    (hpos : ∀ l ∈ lots, 0 < l.quantity_open) (h : consume lots q = .ok (lots2, s)) :
    ∀ l ∈ lots2, 0 < l.quantity_open := by
  induction lots generalizing q lots2 s with
  | nil =>
    rw [consume] at h
    split_ifs at h
    simp only [Except.ok.injEq, Prod.mk.injEq] at h
    obtain ⟨rfl, rfl⟩ := h
    simp
  | cons l rest ih =>
    rw [consume] at h
    split_ifs at h with hq hl
    · simp only [Except.ok.injEq, Prod.mk.injEq] at h
      obtain ⟨rfl, rfl⟩ := h
      exact hpos
    · cases hr : consume rest (q - l.quantity_open) with
      | ok r =>
        obtain ⟨lots3, s3⟩ := r
        rw [hr] at h
        simp only [Except.ok.injEq, Prod.mk.injEq] at h
        obtain ⟨rfl, rfl⟩ := h
        exact ih (q - l.quantity_open) lots3 s3 (fun x hx => hpos x (by simp [hx])) hr
      | error e => rw [hr] at h; cases h
    · simp only [Except.ok.injEq, Prod.mk.injEq] at h
      obtain ⟨rfl, rfl⟩ := h
      intro x hx
      rcases List.mem_cons.mp hx with hx1 | hx2
      · subst hx1
        have := not_le.mp hl
        simp only []
        linarith
      · exact hpos x (by simp [hx2])

/-- Queue order by open date (ties are left in ledger insertion order). -/
def lotDateLE (a b : Lot) : Prop := a.open_date ≤ b.open_date

/-- Slice order by the open date of the consumed lot. -/
def sliceDateLE (a b : Lot × ℚ) : Prop := a.1.open_date ≤ b.1.open_date

theorem consume_order (lots : List Lot) (q : ℚ) (lots2 : List Lot) (s : List (Lot × ℚ))
    (hsort : List.Pairwise lotDateLE lots) (h : consume lots q = .ok (lots2, s)) :
    List.Pairwise sliceDateLE s ∧ List.Pairwise lotDateLE lots2 ∧
    (∀ a ∈ s, ∀ b ∈ lots2, a.1.open_date ≤ b.open_date) ∧
    (∀ b ∈ lots2, ∃ b0 ∈ lots, b.open_date = b0.open_date) ∧
    (∀ a ∈ s, ∃ a0 ∈ lots, a.1.open_date = a0.open_date) := by
  induction lots generalizing q lots2 s with
  | nil =>
    rw [consume] at h
    split_ifs at h
    simp only [Except.ok.injEq, Prod.mk.injEq] at h
    obtain ⟨rfl, rfl⟩ := h
    simp
  | cons l rest ih =>
    rw [List.pairwise_cons] at hsort
    obtain ⟨hfront, hrest⟩ := hsort
    rw [consume] at h
    split_ifs at h with hq hl
    · simp only [Except.ok.injEq, Prod.mk.injEq] at h
      obtain ⟨rfl, rfl⟩ := h
      refine ⟨by simp, ?_, by simp, fun b hb => ⟨b, hb, rfl⟩, by simp⟩
      rw [List.pairwise_cons]
      exact ⟨hfront, hrest⟩
    · cases hr : consume rest (q - l.quantity_open) with
      | ok r =>
        obtain ⟨lots3, s3⟩ := r
        rw [hr] at h
        simp only [Except.ok.injEq, Prod.mk.injEq] at h
        obtain ⟨rfl, rfl⟩ := h
        obtain ⟨P1, P2, P3, P4, P5⟩ := ih (q - l.quantity_open) lots3 s3 hrest hr
        refine ⟨?_, P2, ?_, ?_, ?_⟩
        · rw [List.pairwise_cons]
          refine ⟨fun x hx => ?_, P1⟩
          obtain ⟨a0, ha0, hda⟩ := P5 x hx
          simpa [sliceDateLE, hda] using hfront a0 ha0
        · intro a ha b hb
          rcases List.mem_cons.mp ha with ha1 | ha2
          · obtain ⟨b0, hb0, hdb⟩ := P4 b hb
            subst ha1
            simpa [hdb] using hfront b0 hb0
          · exact P3 a ha2 b hb
        · intro b hb
          obtain ⟨b0, hb0, hdb⟩ := P4 b hb
          exact ⟨b0, by simp [hb0], hdb⟩
        · intro a ha
          rcases List.mem_cons.mp ha with ha1 | ha2
          · subst ha1; exact ⟨l, by simp, rfl⟩
          · obtain ⟨a0, ha0, hda⟩ := P5 a ha2
            exact ⟨a0, by simp [ha0], hda⟩
      | error e => rw [hr] at h; cases h
    · simp only [Except.ok.injEq, Prod.mk.injEq] at h
      obtain ⟨rfl, rfl⟩ := h
      refine ⟨by simp, ?_, ?_, ?_, by intro a ha; simp at ha; subst ha; exact ⟨l, by simp, rfl⟩⟩
      · rw [List.pairwise_cons]
        exact ⟨fun b hb => hfront b hb, hrest⟩
      · intro a ha b hb
        simp only [List.mem_singleton] at ha
        subst ha
        rcases List.mem_cons.mp hb with hb1 | hb2
        · subst hb1; simp
        · exact hfront b hb2
      · intro b hb
        rcases List.mem_cons.mp hb with hb1 | hb2
        · subst hb1; exact ⟨l, by simp, rfl⟩
        · exact ⟨b, by simp [hb2], rfl⟩

theorem totalQty_applySplit (r : ℚ) (lots : List Lot) :
    totalQty (applySplit r lots) = totalQty lots * r := by
  induction lots with
  | nil => simp [totalQty, applySplit]
  | cons l rest ih =>
    simp only [applySplit, List.map_cons] at ih ⊢
    rw [totalQty_cons, totalQty_cons, ih]
    ring

theorem totalCost_applySplit (r : ℚ) (lots : List Lot) (hr : r ≠ 0) :
    totalCost (applySplit r lots) = totalCost lots := by
  induction lots with
  | nil => simp [totalCost, applySplit]
  | cons l rest ih =>
    simp only [applySplit, List.map_cons] at ih ⊢
    rw [totalCost_cons, totalCost_cons, ih]
    congr 1
    field_simp
    ring

theorem applyEvent_totalQty (st st2 : EngineState) (e : LedgerEvent)
    (h : applyEvent st e = .ok st2) :
    totalQty st2.lots = holdingsStep (totalQty st.lots) e := by
  cases e with
  | trade t =>
    simp only [applyEvent, applyTrade, applyTradeTr] at h
    split_ifs at h with h1 h2
    · simp only [Except.ok.injEq] at h
      subst h
      simp [holdingsStep, totalQty_append, totalQty_cons, totalQty_nil, mkLot]
    · cases hr : consume st.lots (-t.quantity) with
      | ok r =>
        obtain ⟨lots2, s⟩ := r
        rw [hr] at h
        simp only [Except.ok.injEq] at h
        subst h
        have hq := consume_totalQty st.lots (-t.quantity) lots2 s hr
        have hs := consume_slicesQty st.lots (-t.quantity) lots2 s (by linarith) hr
        simp only [holdingsStep]
        rw [hq, hs]
        ring
      | error e2 => rw [hr] at h; cases h
    · simp only [Except.ok.injEq] at h
      subst h
      have : t.quantity = 0 := by linarith
      simp [holdingsStep, this]
  | corporateSplit d r =>
    simp only [applyEvent, Except.ok.injEq] at h
    subst h
    simp [holdingsStep, totalQty_applySplit]

theorem processEvents_totalQty (evs : List LedgerEvent) (st stF : EngineState)
    (h : processEvents st evs = .ok stF) :
    totalQty stF.lots = evs.foldl holdingsStep (totalQty st.lots) := by
  induction evs generalizing st with
  | nil =>
    simp only [processEvents, Except.ok.injEq] at h
    subst h
    simp
  | cons e rest ih =>
    rw [processEvents] at h
    cases he : applyEvent st e with
    | ok st2 =>
      rw [he] at h
      rw [List.foldl_cons, ← applyEvent_totalQty st st2 e he]
      exact ih st2 h
    | error err => rw [he] at h; cases h

theorem processTradesTr_buys (ts : List Transaction) (st : EngineState)
    (hb : ∀ t ∈ ts, 0 < t.quantity) :
    processTradesTr st ts = .ok (⟨st.lots ++ ts.map mkLot, st.realized⟩, []) := by
  induction ts generalizing st with
  | nil => simp [processTradesTr]
  | cons t rest ih =>
    have ht : 0 < t.quantity := hb t (by simp)
    rw [processTradesTr]
    simp only [applyTradeTr, if_pos ht]
    rw [ih ⟨st.lots ++ [mkLot t], st.realized⟩ (fun x hx => hb x (by simp [hx]))]
    simp

theorem lots_nil_of_totalQty_zero (lots : List Lot)
    (hpos : ∀ l ∈ lots, 0 < l.quantity_open) (h0 : totalQty lots = 0) : lots = [] := by
  cases lots with
  | nil => rfl
  | cons l rest =>
    exfalso
    have h1 := hpos l (by simp)
    have h2 : 0 ≤ totalQty rest :=
      totalQty_nonneg rest (fun x hx => le_of_lt (hpos x (by simp [hx])))
    rw [totalQty_cons] at h0
    linarith

theorem liquidate_aux (sells : List Transaction) (st : EngineState)
    (hpos : ∀ l ∈ st.lots, 0 < l.quantity_open)
    (hsort : List.Pairwise lotDateLE st.lots)
    (hneg : ∀ t ∈ sells, t.quantity < 0)
    (hsum : (sells.map (fun t => -t.quantity)).sum = totalQty st.lots) :
    ∃ stF tr, processTradesTr st sells = .ok (stF, tr) ∧
      stF.lots = [] ∧
      stF.realized = st.realized
        + (sells.map (fun t => t.amount - t.commission)).sum - totalCost st.lots ∧
      List.Pairwise sliceDateLE tr ∧
      (∀ a ∈ tr, ∃ a0 ∈ st.lots, a.1.open_date = a0.open_date) := by
  induction sells generalizing st with
  | nil =>
    simp only [List.map_nil, List.sum_nil] at hsum
    have hnil : st.lots = [] := lots_nil_of_totalQty_zero st.lots hpos hsum.symm
    refine ⟨st, [], by simp [processTradesTr], hnil, ?_, by simp, by simp⟩
    rw [hnil, totalCost_nil]
    simp
  | cons t rest ih =>
    have hqt : t.quantity < 0 := hneg t (by simp)
    have hq : 0 < -t.quantity := by linarith
    have hrest0 : 0 ≤ (rest.map (fun t2 => -t2.quantity)).sum := by
      apply List.sum_nonneg
      intro x hx
      obtain ⟨t2, ht2, rfl⟩ := List.mem_map.mp hx
      have := hneg t2 (by simp [ht2])
      linarith
    have hsum2 : -t.quantity + (rest.map (fun t2 => -t2.quantity)).sum = totalQty st.lots := by
      simpa using hsum
    have hqle : -t.quantity ≤ totalQty st.lots := by linarith
    obtain ⟨lots2, s, hc⟩ :=
      consume_ok_of_le st.lots (-t.quantity)
        (fun l hl => le_of_lt (hpos l hl)) hqle
    have hpos2 : ∀ l ∈ lots2, 0 < l.quantity_open :=
      consume_pos st.lots (-t.quantity) lots2 s hpos hc
    obtain ⟨P1, P2, P3, P4, P5⟩ := consume_order st.lots (-t.quantity) lots2 s hsort hc
    have hqty2 : totalQty lots2 = totalQty st.lots - (-t.quantity) := by
      rw [consume_totalQty st.lots (-t.quantity) lots2 s hc,
          consume_slicesQty st.lots (-t.quantity) lots2 s (le_of_lt hq) hc]
    have hcost2 : totalCost lots2 = totalCost st.lots - slicesCost s :=
      consume_totalCost st.lots (-t.quantity) lots2 s hc
    set st2 : EngineState := ⟨lots2, st.realized + slicesGain (proceedsPerUnit t) s⟩ with hst2
    have hsumR : (rest.map (fun t2 => -t2.quantity)).sum = totalQty st2.lots := by
      rw [hst2]
      simp only []
      rw [hqty2]
      linarith
    obtain ⟨stF, tr2, hpF, hlotsF, hrealF, htrsort, htrfrom⟩ :=
      ih st2 hpos2 P2 (fun x hx => hneg x (by simp [hx])) hsumR
    have happ : applyTradeTr st t = .ok (st2, s) := by
      rw [applyTradeTr, if_neg (by linarith), if_pos hqt, hc]
    refine ⟨stF, s ++ tr2, ?_, hlotsF, ?_, ?_, ?_⟩
    · simp only [processTradesTr, happ, hpF]
    · have hppu : proceedsPerUnit t * (-t.quantity) = t.amount - t.commission := by
        rw [proceedsPerUnit, abs_of_neg hqt]
        exact div_mul_cancel₀ _ (by linarith)
      have hgain : slicesGain (proceedsPerUnit t) s
          = (t.amount - t.commission) - slicesCost s := by
        rw [slicesGain_decomp,
            consume_slicesQty st.lots (-t.quantity) lots2 s (le_of_lt hq) hc, hppu]
      rw [hrealF, hst2]
      simp only [List.map_cons, List.sum_cons]
      rw [hgain, hcost2]
      ring
    · rw [List.pairwise_append]
      refine ⟨P1, htrsort, ?_⟩
      intro a ha b hb
      obtain ⟨b0, hb0, hdb⟩ := htrfrom b hb
      rw [hst2] at hb0
      simp only [] at hb0
      have := P3 a ha b0 hb0
      simpa [sliceDateLE, hdb] using this
    · intro a ha
      rcases List.mem_append.mp ha with ha1 | ha2
      · exact P5 a ha1
      · obtain ⟨a0, ha0, hda⟩ := htrfrom a ha2
        rw [hst2] at ha0
        simp only [] at ha0
        obtain ⟨a1, ha1, hda1⟩ := P4 a0 ha0
        exact ⟨a1, ha1, by rw [hda, hda1]⟩

theorem classify_ok (m : List (String × TxAction)) (txs : List Transaction)
    (h : ∀ t ∈ txs, (m.lookup t.raw_type).isSome) :
    ∃ out, classify m txs = .ok out ∧ out.map Prod.fst = txs ∧
      ∀ p ∈ out, m.lookup p.1.raw_type = some p.2 := by
  induction txs with
  | nil => exact ⟨[], by simp [classify], by simp, by simp⟩
  | cons t rest ih =>
    have ht := h t (by simp)
    obtain ⟨a, ha⟩ := Option.isSome_iff_exists.mp ht
    obtain ⟨out, hout, hfst, hall⟩ := ih (fun x hx => h x (by simp [hx]))
    refine ⟨(t, a) :: out, ?_, by simp [hfst], ?_⟩
    · simp [classify, classifyOne, ha, hout]
    · intro p hp
      rcases List.mem_cons.mp hp with hp1 | hp2
      · subst hp1; simpa using ha
      · exact hall p hp2

theorem classify_err (m : List (String × TxAction)) (txs : List Transaction)
    (t0 : Transaction) (ht0 : t0 ∈ txs) (hmiss : m.lookup t0.raw_type = none) :
    ∃ t ∈ txs, m.lookup t.raw_type = none ∧
      classify m txs = .error (.unmappedTransactionType t.raw_type t.date) := by
  induction txs with
  | nil => cases ht0
  | cons t rest ih =>
    cases hl : m.lookup t.raw_type with
    | none =>
      exact ⟨t, by simp, hl, by simp [classify, classifyOne, hl]⟩
    | some a =>
      have ht0r : t0 ∈ rest := by
        rcases List.mem_cons.mp ht0 with h1 | h2
        · subst h1; rw [hl] at hmiss; cases hmiss
        · exact h2
      obtain ⟨t2, ht2, hm2, herr⟩ := ih ht0r
      refine ⟨t2, by simp [ht2], hm2, ?_⟩
      simp [classify, classifyOne, hl, herr]

theorem ffillClose_none (ps : List PricePoint) (d : ℕ) (h : ∀ p ∈ ps, d < p.date) :
    ffillClose ps d = none := by
  induction ps with
  | nil => rfl
  | cons p rest ih =>
    simp only [ffillClose]
    rw [ih (fun x hx => h x (by simp [hx]))]
    simp [not_le.mpr (h p (by simp))]

theorem ffillClose_last (ps : List PricePoint) (d : ℕ) (p : PricePoint)
    (hsort : List.Pairwise (fun a b => a.date < b.date) ps)
    (hp : p ∈ ps) (hpd : p.date ≤ d)
    (hmax : ∀ p2 ∈ ps, p2.date ≤ d → p2.date ≤ p.date) :
    ffillClose ps d = some p.close := by
  induction ps with
  | nil => cases hp
  | cons p0 rest ih =>
    rw [List.pairwise_cons] at hsort
    obtain ⟨hfront, hrest⟩ := hsort
    rcases List.mem_cons.mp hp with h1 | h2
    · subst h1
      have hnone : ffillClose rest d = none := by
        apply ffillClose_none
        intro x hx
        by_contra hcon
        push_neg at hcon
        have hx1 := hmax x (by simp [hx]) hcon
        have hx2 := hfront x hx
        omega
      simp only [ffillClose]
      rw [hnone]
      simp [hpd]
    · have := ih hrest h2 (fun p2 hp2 hd2 => hmax p2 (by simp [hp2]) hd2)
      simp only [ffillClose]
      rw [this]

theorem dividendAt_none (ps : List PricePoint) (d : ℕ) (h : ∀ p ∈ ps, p.date ≠ d) :
    dividendAt ps d = none := by
  have hf : ps.find? (fun p => p.date = d) = none := by
    rw [List.find?_eq_none]
    intro x hx
    simp [h x hx]
  simp only [dividendAt]
  rw [hf]

theorem splitEventAt_none (ps : List PricePoint) (d : ℕ) (h : ∀ p ∈ ps, p.date ≠ d) :
    splitEventAt ps d = none := by
  have hf : ps.find? (fun p => p.date = d) = none := by
    rw [List.find?_eq_none]
    intro x hx
    simp [h x hx]
  simp only [splitEventAt]
  rw [hf]

theorem totalCost_map_mkLot (buys : List Transaction)
    (hb : ∀ t ∈ buys, 0 < t.quantity) :
    totalCost (buys.map mkLot) = (buys.map (fun t => t.amount + t.commission)).sum := by
  induction buys with
  | nil => simp [totalCost]
  | cons t rest ih =>
    simp only [List.map_cons, List.sum_cons]
    rw [totalCost_cons, ih (fun x hx => hb x (by simp [hx]))]
    congr 1
    have hq : t.quantity ≠ 0 := ne_of_gt (hb t (by simp))
    simp only [mkLot]
    field_simp

/-- Claim C1: for every buy trade the engine appends a new lot whose
quantity equals the trade quantity and whose cost-basis-per-unit equals
(amount + commission)/quantity; for every sell of quantity q not
exceeding the total open quantity, lots are consumed from the front of
the FIFO queue and the realized gain of each consumed slice equals
(sale proceeds per unit − that lot's cost-basis-per-unit) × slice
quantity, with sale proceeds per unit = (amount − commission)/|quantity|.
The stated buy formula is applied to the signed `amount` exactly as
written (amount is negative for buys under the data-model sign
convention). -/
theorem claim_C1_buy_appends_sell_consumes_fifo (st : EngineState) (t : Transaction) :
    (0 < t.quantity →
      applyTrade st t = .ok ⟨st.lots ++
        [⟨t.symbol.getD "", t.date, t.quantity, (t.amount + t.commission) / t.quantity,
          t.currency⟩], st.realized⟩) ∧
    (t.quantity < 0 → -t.quantity ≤ totalQty st.lots →
      (∀ l ∈ st.lots, 0 ≤ l.quantity_open) →
      ∃ lots2 s, consume st.lots (-t.quantity) = .ok (lots2, s) ∧
        s.map Prod.fst = st.lots.take s.length ∧
        slicesQty s = -t.quantity ∧
        applyTrade st t = .ok ⟨lots2,
          st.realized + slicesGain ((t.amount - t.commission) / |t.quantity|) s⟩) := by
  constructor
  · intro hb
    simp [applyTrade, applyTradeTr, hb, mkLot]
  · intro hs hle hnn
    obtain ⟨lots2, s, hc⟩ := consume_ok_of_le st.lots (-t.quantity) hnn hle
    have hnb : ¬ 0 < t.quantity := by linarith
    refine ⟨lots2, s, hc, consume_take _ _ _ _ hc,
      consume_slicesQty _ _ _ _ (by linarith) hc, ?_⟩
    simp [applyTrade, applyTradeTr, hnb, hs, hc, proceedsPerUnit]

/-- Witness for C1: a concrete buy of 10 units (amount −1000, commission
0, so cost-basis-per-unit −100 under the stated formula), then a sell of
4 of those 10 units. -/
theorem claim_C1_witness :
    ((0:ℚ) < (10:ℚ) ∧
      applyTrade ⟨[], 0⟩ ⟨1, "buy", some "VOO", 10, 100, -1000, 0, "USD", "NYSE", "B"⟩ =
        .ok ⟨[] ++ [⟨"VOO", 1, 10, ((-1000) + 0) / 10, "USD"⟩], 0⟩) ∧
    ((-4:ℚ) < 0 ∧
      ∃ lots2 s, consume [⟨"VOO", 1, 10, -100, "USD"⟩] (-(-4)) = .ok (lots2, s) ∧
        s.map Prod.fst = [⟨"VOO", 1, 10, -100, "USD"⟩].take s.length ∧
        slicesQty s = -(-4) ∧
        applyTrade ⟨[⟨"VOO", 1, 10, -100, "USD"⟩], 0⟩
            ⟨2, "sell", some "VOO", -4, 150, 600, 0, "USD", "NYSE", "B"⟩ =
          .ok ⟨lots2, 0 + slicesGain ((600 - 0) / |(-4:ℚ)|) s⟩) := by
  constructor
  · exact ⟨by norm_num,
      (claim_C1_buy_appends_sell_consumes_fifo ⟨[], 0⟩
        ⟨1, "buy", some "VOO", 10, 100, -1000, 0, "USD", "NYSE", "B"⟩).1 (by norm_num)⟩
  · refine ⟨by norm_num, ?_⟩
    exact (claim_C1_buy_appends_sell_consumes_fifo ⟨[⟨"VOO", 1, 10, -100, "USD"⟩], 0⟩
      ⟨2, "sell", some "VOO", -4, 150, 600, 0, "USD", "NYSE", "B"⟩).2 (by norm_num)
      (by norm_num [totalQty])
      (by intro l hl; simp only [List.mem_singleton] at hl; subst hl; norm_num)

/-- Claim C2: a sell whose quantity exceeds the total open quantity
fails with `OversoldPosition` and commits no partial state (the lot
queue — indeed the whole engine state — is exactly as before); a sell
with quantity at most the total open quantity raises no error. -/
theorem claim_C2_oversell_atomic (st : EngineState) (t : Transaction)
    (hsell : t.quantity < 0) (hnn : ∀ l ∈ st.lots, 0 ≤ l.quantity_open) :
    (totalQty st.lots < -t.quantity →
      commitTrade st t = (st, some PortfolioError.oversoldPosition)) ∧
    (-t.quantity ≤ totalQty st.lots → (commitTrade st t).2 = none) := by
  have hnb : ¬ 0 < t.quantity := by linarith
  constructor
  · intro hgt
    have herr := consume_err_of_gt st.lots (-t.quantity) hnn hgt
    simp [commitTrade, applyTrade, applyTradeTr, hnb, hsell, herr]
  · intro hle
    obtain ⟨lots2, s, hc⟩ := consume_ok_of_le st.lots (-t.quantity) hnn hle
    simp [commitTrade, applyTrade, applyTradeTr, hnb, hsell, hc]

/-- Witness for C2: the spec's oversell scenario — sell 15 when only 10
are held fails with `OversoldPosition` and leaves the state untouched;
selling exactly 10 raises no error. -/
theorem claim_C2_witness :
    ((-15:ℚ) < 0 ∧
      commitTrade ⟨[⟨"X", 1, 10, 100, "USD"⟩], 0⟩
          ⟨2, "sell", some "X", -15, 0, 1500, 0, "USD", "NYSE", "B"⟩ =
        (⟨[⟨"X", 1, 10, 100, "USD"⟩], 0⟩, some PortfolioError.oversoldPosition)) ∧
    ((-10:ℚ) < 0 ∧
      (commitTrade ⟨[⟨"X", 1, 10, 100, "USD"⟩], 0⟩
          ⟨2, "sell", some "X", -10, 0, 1000, 0, "USD", "NYSE", "B"⟩).2 = none) := by
  constructor
  · refine ⟨by norm_num, ?_⟩
    exact (claim_C2_oversell_atomic ⟨[⟨"X", 1, 10, 100, "USD"⟩], 0⟩
      ⟨2, "sell", some "X", -15, 0, 1500, 0, "USD", "NYSE", "B"⟩ (by norm_num)
      (by intro l hl; simp only [List.mem_singleton] at hl; subst hl; norm_num)).1
      (by norm_num [totalQty])
  · refine ⟨by norm_num, ?_⟩
    exact (claim_C2_oversell_atomic ⟨[⟨"X", 1, 10, 100, "USD"⟩], 0⟩
      ⟨2, "sell", some "X", -10, 0, 1000, 0, "USD", "NYSE", "B"⟩ (by norm_num)
      (by intro l hl; simp only [List.mem_singleton] at hl; subst hl; norm_num)).2
      (by norm_num [totalQty])

/-- Claim C3: a corporate split with (nonzero) ratio `r` rescales every
open lot's quantity by `r` and its cost-basis-per-unit inversely, so the
total cost basis (sum of quantity × cost-basis-per-unit) is unchanged;
in particular a 2-for-1 split of one lot of 10 shares at $100
cost-basis-per-unit yields one lot of 20 shares at $50 with total cost
basis still $1000.  (A split ratio is the ratio of the nonzero paired
corporate-action quantities, hence nonzero.) -/
theorem claim_C3_split_invariance (lots : List Lot) (r : ℚ) (hr : r ≠ 0) :
    applySplit r lots = lots.map (fun l =>
      ⟨l.symbol, l.open_date, l.quantity_open * r, l.cost_basis_per_unit / r, l.currency⟩) ∧
    totalCost (applySplit r lots) = totalCost lots ∧
    applySplit 2 [⟨"X", 0, 10, 100, "USD"⟩] = [⟨"X", 0, 20, 50, "USD"⟩] ∧
    totalCost (applySplit 2 [⟨"X", 0, 10, 100, "USD"⟩]) = 1000 ∧
    totalCost [⟨"X", 0, 10, 100, "USD"⟩] = 1000 := by
  refine ⟨rfl, totalCost_applySplit r lots hr, ?_, ?_, ?_⟩
  · simp [applySplit]
    norm_num
  · simp [applySplit, totalCost]
    norm_num
  · simp [totalCost]
    norm_num

/-- Witness for C3: the split invariance applied at ratio 2 to the
spec's scenario lot. -/
theorem claim_C3_witness :
    (2:ℚ) ≠ 0 ∧
    totalCost (applySplit 2 [⟨"X", 0, 10, 100, "USD"⟩]) =
      totalCost [⟨"X", 0, 10, 100, "USD"⟩] :=
  ⟨by norm_num,
   (claim_C3_split_invariance [⟨"X", 0, 10, 100, "USD"⟩] 2 (by norm_num)).2.1⟩

/-- Claim C8: for every amount, currency and date for which an FX rate
is available (a positive rate, as FX rates are), converting to the base
currency and converting the result back with the same date's rate
reproduces the original amount — exactly, in the rational model, hence
within any floating tolerance. -/
theorem claim_C8_currency_round_trip (rates : List ((String × ℕ) × ℚ))
    (a : ℚ) (c : String) (d : ℕ) (r : ℚ)
    (hl : fxLookup rates c d = some r) (hr : 0 < r) :
    toBase rates a c d = .ok (a * r) ∧ fromBase rates (a * r) c d = .ok a := by
  constructor
  · simp [toBase, hl]
  · simp only [fromBase, hl]
    rw [mul_div_cancel_right₀ a (ne_of_gt hr)]

/-- Witness for C8: a concrete table with rate 4 for ("AED", 3); the
round trip of amount 100 returns 100. -/
theorem claim_C8_witness :
    fxLookup [(("AED", 3), 4)] "AED" 3 = some 4 ∧ (0:ℚ) < 4 ∧
    (toBase [(("AED", 3), 4)] 100 "AED" 3 = .ok (100 * 4) ∧
     fromBase [(("AED", 3), 4)] (100 * 4) "AED" 3 = .ok 100) :=
  ⟨rfl, by norm_num,
   claim_C8_currency_round_trip [(("AED", 3), 4)] 100 "AED" 3 4 rfl (by norm_num)⟩

/-- Claim C9 counterexample: on an input whose HTTP request raises a
`RequestException`, `fetch_data` does not successfully execute its final
return — the claim that it returns a pair for every input is false. -/
theorem claim_C9_counterexample :
    (fetch_data FetchOutcome.requestException).isRet = false := rfl

/-- Claim C9 (amended): `fetch_data` executes its final return exactly
when the request and the JSON decode succeed; when a `RequestException`
or a JSON-decoding `ValueError` is caught, the handler only prints, but
the final return then references the never-assigned locals `df` and
`data` and raises `UnboundLocalError` instead of returning a pair. -/
theorem claim_C9_amended (o : FetchOutcome) :
    ((fetch_data o).isRet = true ↔ ∃ data, o = FetchOutcome.success data) ∧
    fetch_data FetchOutcome.requestException = PyResult.unboundLocalError ∧
    fetch_data FetchOutcome.jsonDecodeError = PyResult.unboundLocalError := by
  refine ⟨?_, rfl, rfl⟩
  cases o with
  | success data =>
    by_cases hdt : "DT" ∈ dfColumns data
    · simp [fetch_data, hdt, PyResult.isRet]
    · simp [fetch_data, hdt, PyResult.isRet]
  | requestException => simp [fetch_data, PyResult.isRet]
  | jsonDecodeError => simp [fetch_data, PyResult.isRet]

/-- Claim C10: for every (Symbol, Exchange) row, the download loop
builds the request URL with exchange "DFM" exactly when the row's
Exchange equals "DFM" and with "ADSM" otherwise (the exchange component
is always one of these two strings), and saves the fetched history to a
CSV named after the symbol. -/
theorem claim_C10_download_loop (sid start stop slug : String) (row : SymbolExchangeRow) :
    downloadStep sid start stop slug row =
      ⟨datafeedUrl sid row.Symbol (if row.Exchange = "DFM" then "DFM" else "ADSM")
        start stop slug,
       "../data/manual-source/" ++ row.Symbol ++ ".csv"⟩ ∧
    (exchangeArg row = "DFM" ↔ row.Exchange = "DFM") ∧
    (exchangeArg row = "DFM" ∨ exchangeArg row = "ADSM") := by
  refine ⟨?_, ?_, ?_⟩
  · rw [downloadStep, exchangeArg]
    by_cases h : row.Exchange = "DFM"
    · simp [h]
    · simp [h]
  · rw [exchangeArg]
    by_cases h : row.Exchange = "DFM"
    · simp [h]
    · simp only [if_neg h]
      constructor
      · intro hc; exact absurd hc (by decide)
      · intro hc; exact absurd hc h
  · rw [exchangeArg]
    by_cases h : row.Exchange = "DFM"
    · simp [h]
    · simp [h]

/-- Claim C4: for every per-symbol event stream and every date `d`,
after processing every transaction up to `d`, the sum of quantity_open
over the engine's open lots equals the value of the HoldingsSeries at
`d` — the lot ledger and the holdings series never diverge. -/
theorem claim_C4_lots_match_holdings (events : List LedgerEvent) (d : ℕ) (st : EngineState)
    (h : processEvents initialState (eventsUpTo events d) = .ok st) :
    totalQty st.lots = holdingsSeries events d := by
  have hq := processEvents_totalQty (eventsUpTo events d) initialState st h
  rw [holdingsSeries]
  rw [hq]
  rfl

/-- Witness for C4: a buy of 10, a 2-for-1 split, then a sell of 5, all
on or before date 3; the engine holds 15 units and the holdings series
value at date 3 is (0 + 10) × 2 − 5 = 15. -/
theorem claim_C4_witness :
    processEvents initialState
        (eventsUpTo
          [LedgerEvent.trade ⟨1, "buy", some "X", 10, 100, -1000, 0, "USD", "NYSE", "B"⟩,
           LedgerEvent.corporateSplit 2 2,
           LedgerEvent.trade ⟨3, "sell", some "X", -5, 120, 600, 0, "USD", "NYSE", "B"⟩] 3) =
      .ok ⟨[⟨"X", 1, 15, -50, "USD"⟩], 850⟩ ∧
    totalQty (⟨[⟨"X", 1, 15, -50, "USD"⟩], 850⟩ : EngineState).lots =
      holdingsSeries
        [LedgerEvent.trade ⟨1, "buy", some "X", 10, 100, -1000, 0, "USD", "NYSE", "B"⟩,
         LedgerEvent.corporateSplit 2 2,
         LedgerEvent.trade ⟨3, "sell", some "X", -5, 120, 600, 0, "USD", "NYSE", "B"⟩] 3 := by
  have hrun : processEvents initialState
      (eventsUpTo
        [LedgerEvent.trade ⟨1, "buy", some "X", 10, 100, -1000, 0, "USD", "NYSE", "B"⟩,
         LedgerEvent.corporateSplit 2 2,
         LedgerEvent.trade ⟨3, "sell", some "X", -5, 120, 600, 0, "USD", "NYSE", "B"⟩] 3) =
      .ok ⟨[⟨"X", 1, 15, -50, "USD"⟩], 850⟩ := by
    norm_num [processEvents, eventsUpTo, applyEvent, applyTrade, applyTradeTr, consume,
      mkLot, slicesGain, slicesQty, proceedsPerUnit, applySplit, initialState,
      LedgerEvent.date]
  exact ⟨hrun, claim_C4_lots_match_holdings
    [LedgerEvent.trade ⟨1, "buy", some "X", 10, 100, -1000, 0, "USD", "NYSE", "B"⟩,
     LedgerEvent.corporateSplit 2 2,
     LedgerEvent.trade ⟨3, "sell", some "X", -5, 120, 600, 0, "USD", "NYSE", "B"⟩] 3
    ⟨[⟨"X", 1, 15, -50, "USD"⟩], 850⟩ hrun⟩

/-- Claim C6: the Transaction Classifier annotates each transaction with
the action obtained by a case-sensitive exact-match lookup of its
raw_type; whenever some transaction's raw_type is absent from the
mapping it fails with `UnmappedTransactionType` naming an offending
raw_type string and that transaction's date — no unmapped transaction is
silently ignored. -/
theorem claim_C6_classifier (m : List (String × TxAction)) (txs : List Transaction) :
    ((∀ t ∈ txs, (m.lookup t.raw_type).isSome) →
      ∃ out, classify m txs = .ok out ∧ out.map Prod.fst = txs ∧
        ∀ p ∈ out, m.lookup p.1.raw_type = some p.2) ∧
    ((∃ t ∈ txs, m.lookup t.raw_type = none) →
      ∃ t ∈ txs, m.lookup t.raw_type = none ∧
        classify m txs = .error (.unmappedTransactionType t.raw_type t.date)) := by
  constructor
  · exact classify_ok m txs
  · rintro ⟨t0, ht0, hm⟩
    exact classify_err m txs t0 ht0 hm

/-- Witness for C6: with mapping keys "buy" and "Net Deposit", a
transaction typed "Buy" (different case) is unmapped and classification
fails naming "Buy" and its date 7 — exact, case-sensitive matching. -/
theorem claim_C6_witness :
    (∃ t ∈ [(⟨7, "Buy", none, 0, 0, 0, 0, "USD", "", ""⟩ : Transaction)],
      ([("buy", TxAction.trade), ("Net Deposit", TxAction.cash_flow)]).lookup t.raw_type
        = none) ∧
    (∃ t ∈ [(⟨7, "Buy", none, 0, 0, 0, 0, "USD", "", ""⟩ : Transaction)],
      ([("buy", TxAction.trade), ("Net Deposit", TxAction.cash_flow)]).lookup t.raw_type
          = none ∧
      classify [("buy", TxAction.trade), ("Net Deposit", TxAction.cash_flow)]
          [⟨7, "Buy", none, 0, 0, 0, 0, "USD", "", ""⟩] =
        .error (.unmappedTransactionType t.raw_type t.date)) := by
  have hmiss :
      ([("buy", TxAction.trade), ("Net Deposit", TxAction.cash_flow)]).lookup
        (⟨7, "Buy", none, 0, 0, 0, 0, "USD", "", ""⟩ : Transaction).raw_type = none := rfl
  refine ⟨⟨_, by simp, hmiss⟩, ?_⟩
  exact (claim_C6_classifier [("buy", TxAction.trade), ("Net Deposit", TxAction.cash_flow)]
    [⟨7, "Buy", none, 0, 0, 0, 0, "USD", "", ""⟩]).2 ⟨_, by simp, hmiss⟩

/-- Claim C7: for a sparse per-symbol price series (strictly ascending
observation dates) forward-filled to the dense axis: at any date the
filled price is the close of the last observation at or before that
date (so a non-trading day carries the last trading day's close); on a
day before the first observation the valuation is absent, not zero; and
the dividend/split event fields are never forward-filled — on a day with
no observation they are absent, meaning no event occurred that day. -/
theorem claim_C7_forward_fill (ps : List PricePoint) (d : ℕ)
    (hsort : List.Pairwise (fun a b => a.date < b.date) ps) :
    (∀ p ∈ ps, p.date ≤ d → (∀ p2 ∈ ps, p2.date ≤ d → p2.date ≤ p.date) →
      ffillClose ps d = some p.close) ∧
    ((∀ p ∈ ps, d < p.date) → ffillClose ps d = none) ∧
    ((∀ p ∈ ps, p.date ≠ d) →
      dividendAt ps d = none ∧ splitEventAt ps d = none) := by
  refine ⟨?_, ?_, ?_⟩
  · intro p hp hpd hmax
    exact ffillClose_last ps d p hsort hp hpd hmax
  · intro h
    exact ffillClose_none ps d h
  · intro h
    exact ⟨dividendAt_none ps d h, splitEventAt_none ps d h⟩

/-- Witness for C7: observations on days 2 (close 10, a dividend) and 5
(close 20, a split).  Day 4 is a non-trading day: the filled price is
day 2's close and both event fields are absent; day 1 precedes the first
observation: the price is absent. -/
theorem claim_C7_witness :
    ffillClose [⟨2, 10, some 1, none⟩, ⟨5, 20, none, some 2⟩] 4 = some 10 ∧
    ffillClose [⟨2, 10, some 1, none⟩, ⟨5, 20, none, some 2⟩] 1 = none ∧
    (dividendAt [⟨2, 10, some 1, none⟩, ⟨5, 20, none, some 2⟩] 4 = none ∧
     splitEventAt [⟨2, 10, some 1, none⟩, ⟨5, 20, none, some 2⟩] 4 = none) := by
  have hsort : List.Pairwise (fun a b : PricePoint => a.date < b.date)
      [⟨2, 10, some 1, none⟩, ⟨5, 20, none, some 2⟩] := by decide
  refine ⟨?_, ?_, ?_⟩
  · refine (claim_C7_forward_fill [⟨2, 10, some 1, none⟩, ⟨5, 20, none, some 2⟩] 4
      hsort).1 ⟨2, 10, some 1, none⟩ (by simp) (by norm_num) ?_
    intro p2 hp2 hd2
    rcases List.mem_cons.mp hp2 with h | h
    · subst h; decide
    · simp only [List.mem_singleton] at h
      subst h
      exact absurd hd2 (by decide)
  · refine (claim_C7_forward_fill [⟨2, 10, some 1, none⟩, ⟨5, 20, none, some 2⟩] 1
      hsort).2.1 ?_
    intro p hp
    rcases List.mem_cons.mp hp with h | h
    · subst h; decide
    · simp only [List.mem_singleton] at h
      subst h; decide
  · refine (claim_C7_forward_fill [⟨2, 10, some 1, none⟩, ⟨5, 20, none, some 2⟩] 4
      hsort).2.2 ?_
    intro p hp
    rcases List.mem_cons.mp hp with h | h
    · subst h; decide
    · simp only [List.mem_singleton] at h
      subst h; decide

/-- Claim C5: for every sequence of buys (in date order) followed by any
sells that liquidate the entire position, the buys build the lot queue
in open-date order (ties in ledger insertion order), the sells consume
the lots in that open-date order (the slice trace is monotone in open
date), and the total realized gain equals total sale proceeds minus the
original total cost basis of all consumed lots — independent of how the
liquidation is split into partial sells. -/
theorem claim_C5_fifo_full_liquidation (buys sells : List Transaction)
    (hb : ∀ t ∈ buys, 0 < t.quantity)
    (hdates : List.Pairwise (fun a b => a.date ≤ b.date) buys)
    (hneg : ∀ t ∈ sells, t.quantity < 0)
    (hsum : (sells.map (fun t => -t.quantity)).sum = (buys.map Transaction.quantity).sum) :
    processTradesTr initialState buys = .ok (⟨buys.map mkLot, 0⟩, []) ∧
    ∃ stF tr,
      processTradesTr ⟨buys.map mkLot, 0⟩ sells = .ok (stF, tr) ∧
      stF.lots = [] ∧
      stF.realized = (sells.map (fun t => t.amount - t.commission)).sum
        - totalCost (buys.map mkLot) ∧
      totalCost (buys.map mkLot) = (buys.map (fun t => t.amount + t.commission)).sum ∧
      List.Pairwise sliceDateLE tr ∧
      (∀ a ∈ tr, ∃ a0 ∈ buys.map mkLot, a.1.open_date = a0.open_date) := by
  have hbuys := processTradesTr_buys buys initialState hb
  constructor
  · simpa [initialState] using hbuys
  have hpos1 : ∀ l ∈ buys.map mkLot, 0 < l.quantity_open := by
    intro l hl
    obtain ⟨t, ht, rfl⟩ := List.mem_map.mp hl
    simpa [mkLot] using hb t ht
  have hsort1 : List.Pairwise lotDateLE (buys.map mkLot) := by
    rw [List.pairwise_map]
    exact hdates
  have hq1 : (sells.map (fun t => -t.quantity)).sum = totalQty (buys.map mkLot) := by
    rw [hsum, totalQty, List.map_map]
    simp [Function.comp_def, mkLot]
  obtain ⟨stF, tr, hp, hl, hreal, hsortTr, hfrom⟩ :=
    liquidate_aux sells ⟨buys.map mkLot, 0⟩ hpos1 hsort1 hneg hq1
  refine ⟨stF, tr, hp, hl, ?_, totalCost_map_mkLot buys hb, hsortTr, hfrom⟩
  rw [hreal]
  simp

/-- Witness for C5: buys of 10 (day 1) and 5 (day 2) are liquidated by
sells of 8 (day 3) and 7 (day 4); the liquidation succeeds, empties the
queue, and realizes total proceeds minus the original total cost basis. -/
theorem claim_C5_witness :
    (∀ t ∈ [(⟨1, "buy", some "X", 10, 100, -1000, 0, "USD", "NYSE", "B"⟩ : Transaction),
            ⟨2, "buy", some "X", 5, 110, -550, 0, "USD", "NYSE", "B"⟩], 0 < t.quantity) ∧
    (∀ t ∈ [(⟨3, "sell", some "X", -8, 120, 960, 0, "USD", "NYSE", "B"⟩ : Transaction),
            ⟨4, "sell", some "X", -7, 130, 910, 0, "USD", "NYSE", "B"⟩], t.quantity < 0) ∧
    (processTradesTr initialState
        [⟨1, "buy", some "X", 10, 100, -1000, 0, "USD", "NYSE", "B"⟩,
         ⟨2, "buy", some "X", 5, 110, -550, 0, "USD", "NYSE", "B"⟩] =
      .ok (⟨[⟨1, "buy", some "X", 10, 100, -1000, 0, "USD", "NYSE", "B"⟩,
             ⟨2, "buy", some "X", 5, 110, -550, 0, "USD", "NYSE", "B"⟩].map mkLot, 0⟩, []) ∧
     ∃ stF tr,
      processTradesTr
          ⟨[(⟨1, "buy", some "X", 10, 100, -1000, 0, "USD", "NYSE", "B"⟩ : Transaction),
            ⟨2, "buy", some "X", 5, 110, -550, 0, "USD", "NYSE", "B"⟩].map mkLot, 0⟩
          [⟨3, "sell", some "X", -8, 120, 960, 0, "USD", "NYSE", "B"⟩,
           ⟨4, "sell", some "X", -7, 130, 910, 0, "USD", "NYSE", "B"⟩] = .ok (stF, tr) ∧
      stF.lots = [] ∧
      stF.realized =
        ([(⟨3, "sell", some "X", -8, 120, 960, 0, "USD", "NYSE", "B"⟩ : Transaction),
          ⟨4, "sell", some "X", -7, 130, 910, 0, "USD", "NYSE", "B"⟩].map
            (fun t => t.amount - t.commission)).sum
          - totalCost ([(⟨1, "buy", some "X", 10, 100, -1000, 0, "USD", "NYSE", "B"⟩ : Transaction),
              ⟨2, "buy", some "X", 5, 110, -550, 0, "USD", "NYSE", "B"⟩].map mkLot) ∧
      totalCost ([(⟨1, "buy", some "X", 10, 100, -1000, 0, "USD", "NYSE", "B"⟩ : Transaction),
          ⟨2, "buy", some "X", 5, 110, -550, 0, "USD", "NYSE", "B"⟩].map mkLot) =
        ([(⟨1, "buy", some "X", 10, 100, -1000, 0, "USD", "NYSE", "B"⟩ : Transaction),
          ⟨2, "buy", some "X", 5, 110, -550, 0, "USD", "NYSE", "B"⟩].map
            (fun t => t.amount + t.commission)).sum ∧
      List.Pairwise sliceDateLE tr ∧
      (∀ a ∈ tr, ∃ a0 ∈ [(⟨1, "buy", some "X", 10, 100, -1000, 0, "USD", "NYSE", "B"⟩ : Transaction),
          ⟨2, "buy", some "X", 5, 110, -550, 0, "USD", "NYSE", "B"⟩].map mkLot,
        a.1.open_date = a0.open_date)) := by
  have h1 : ∀ t ∈ [(⟨1, "buy", some "X", 10, 100, -1000, 0, "USD", "NYSE", "B"⟩ : Transaction),
      ⟨2, "buy", some "X", 5, 110, -550, 0, "USD", "NYSE", "B"⟩], 0 < t.quantity := by
    intro t ht
    rcases List.mem_cons.mp ht with h | h
    · subst h; norm_num
    · simp only [List.mem_singleton] at h
      subst h; norm_num
  have h3 : ∀ t ∈ [(⟨3, "sell", some "X", -8, 120, 960, 0, "USD", "NYSE", "B"⟩ : Transaction),
      ⟨4, "sell", some "X", -7, 130, 910, 0, "USD", "NYSE", "B"⟩], t.quantity < 0 := by
    intro t ht
    rcases List.mem_cons.mp ht with h | h
    · subst h; norm_num
    · simp only [List.mem_singleton] at h
      subst h; norm_num
  refine ⟨h1, h3, ?_⟩
  exact claim_C5_fifo_full_liquidation
    [⟨1, "buy", some "X", 10, 100, -1000, 0, "USD", "NYSE", "B"⟩,
     ⟨2, "buy", some "X", 5, 110, -550, 0, "USD", "NYSE", "B"⟩]
    [⟨3, "sell", some "X", -8, 120, 960, 0, "USD", "NYSE", "B"⟩,
     ⟨4, "sell", some "X", -7, 130, 910, 0, "USD", "NYSE", "B"⟩]
    h1 (by decide) h3 (by norm_num)

/-- Witness for C10: the loop step at the transaction-log row
(ALDAR, ADX): the URL is built with exchange "ADSM" and the history is
saved to ../data/manual-source/ALDAR.csv. -/
theorem claim_C10_witness :
    downloadStep "s" "a" "b" "c" ⟨"ALDAR", "ADX"⟩ =
      ⟨datafeedUrl "s" "ALDAR" (if ("ADX" : String) = "DFM" then "DFM" else "ADSM")
        "a" "b" "c",
       "../data/manual-source/" ++ "ALDAR" ++ ".csv"⟩ ∧
    (exchangeArg ⟨"ALDAR", "ADX"⟩ = "DFM" ↔ ("ADX" : String) = "DFM") ∧
    (exchangeArg ⟨"ALDAR", "ADX"⟩ = "DFM" ∨ exchangeArg ⟨"ALDAR", "ADX"⟩ = "ADSM") :=
  claim_C10_download_loop "s" "a" "b" "c" ⟨"ALDAR", "ADX"⟩
